import Mathlib

/-!
Shallow embedding of the MVCC in-memory key index (`server/storage/mvcc/index.go`).

The B-tree backing `treeIndex` is modelled as a list of `keyIndex` entries kept in
ascending key order (the order maintained by the btree); well-formedness of a tree
state is expressed by the `sortedTree` / `nodupKeys` predicates below.  The per-key
`keyIndex` operations live in `key_index.go`, which is not part of the sources at
hand; those definitions are modelled from the specification text (each such
definition carries a doc comment saying so).
-/

/-- A revision: a `(main, sub)` pair of 64-bit integers, ordered lexicographically. -/
structure revision where
  main : Int
  sub : Int
deriving DecidableEq, Repr

/-- Errors surfaced by the index (`ErrRevisionNotFound`, `ErrRevisionOutOfOrder`,
and the spec's `Unavailable` for tombstoning a dead key). -/
inductive IndexErr where
  | revisionNotFound
  | revisionOutOfOrder
  | unavailable
deriving DecidableEq, Repr

/-- Strict lexicographic order on revisions: `a` is older than `b`. -/
def revLt (a b : revision) : Bool :=
  decide (a.main < b.main) || (decide (a.main = b.main) && decide (a.sub < b.sub))

/-- Non-strict revision order, used for sorting `RangeSince` output ascending. -/
def revLE (a b : revision) : Prop :=
  a.main < b.main ∨ (a.main = b.main ∧ a.sub ≤ b.sub)

instance (a b : revision) : Decidable (revLE a b) := by
  unfold revLE
  exact inferInstance

/-- `sort.Sort(revisions(revs))`: sort a revision list ascending by revision order.
(`revisions.Less` lives in `revision.go`; modelled from the spec: ascending
lexicographic `(main, sub)` order.) -/
def sortRevs (l : List revision) : List revision :=
  List.insertionSort revLE l

/-- Unsigned lexicographic byte-string order (`bytes.Compare(a, b) == -1`),
the `Less` used by the btree items. -/
def byteLess : List Nat → List Nat → Bool
  | [], [] => false
  | [], _ :: _ => true
  | _ :: _, [] => false
  | x :: xs, y :: ys =>
    decide (x < y) || (decide (x = y) && byteLess xs ys)

/-- One generation of a key's history: its creating revision, version counter,
and the ordered revisions it holds. -/
structure generation where
  created : revision
  ver : Int
  revs : List revision
deriving DecidableEq, Repr

/-- The empty sentinel generation appended after a tombstone. -/
def freshGen : generation := ⟨⟨0, 0⟩, 0, []⟩

/-- A generation is empty iff it holds no revisions. -/
def generation.gIsEmpty (g : generation) : Bool := g.revs.isEmpty

/-- Per-key history: the key, the most recent revision, the size of the last
written value, and the generation list (oldest first). -/
structure keyIndex where
  key : List Nat
  modified : revision
  valueSize : Int
  generations : List generation
deriving DecidableEq, Repr

/-- A keyIndex is empty iff it has exactly one generation and that generation is
empty (spec §3 invariant); such entries must be deleted from the tree. -/
def keyIndex.isEmptyKi (ki : keyIndex) : Bool :=
  match ki.generations with
  | [g] => g.gIsEmpty
  | _ => false

/-- Last element of a nonempty revision list (head `r`, tail `rs`). -/
def lastOf (r : revision) : List revision → revision
  | [] => r
  | x :: xs => lastOf x xs

/-- Walk generations from youngest to oldest (the input list is the reversed
generation list, `i` the index of the head in the original list, `isLast` whether
the head is the youngest generation).  Skips empty generations; stops with `none`
when a closed generation's tombstone is at or before `rev` (the tombstoned-gap
case of the spec); returns the generation once its first revision is at or
before `rev`. -/
def findGenLoop (rev : Int) : List generation → Nat → Bool → Option (Nat × generation)
  | [], _, _ => none
  | g :: rest, i, isLast =>
    match g.revs with
    | [] => findGenLoop rev rest (i - 1) false
    | r0 :: rs =>
      if !isLast && decide ((lastOf r0 rs).main ≤ rev) then none
      else if decide (r0.main ≤ rev) then some (i, g)
      else findGenLoop rev rest (i - 1) false

/-- Modelled from the spec: `keyIndex.findGeneration` (`key_index.go` is not among
the sources).  Finds the youngest generation whose first revision's `main` is at
or before `rev`, returning `none` when `rev` falls in a tombstoned gap or before
the key's creation.  Also returns the generation's position (oldest-first index). -/
def keyIndex.findGenerationIdx (ki : keyIndex) (rev : Int) : Option (Nat × generation) :=
  findGenLoop rev ki.generations.reverse (ki.generations.length - 1) true

/-- Latest revision at or before `atRev` in a generation's revision list, with its
index: folds left keeping the last match. -/
def lastLEAux (atRev : Int) : List revision → Nat → Option (revision × Nat) → Option (revision × Nat)
  | [], _, acc => acc
  | r :: rs, i, acc =>
    lastLEAux atRev rs (i + 1) (if decide (r.main ≤ atRev) then some (r, i) else acc)

/-- Latest revision with `main ≤ atRev` in a revision list, with its index. -/
def lastLE (atRev : Int) (revs : List revision) : Option (revision × Nat) :=
  lastLEAux atRev revs 0 none

/-- Modelled from the spec: `keyIndex.get` (`key_index.go` is not among the
sources).  Find the youngest generation whose first revision is at or before
`atRev`; within it the latest revision `r` with `r.main ≤ atRev`; return
`(r, g.created, index + 1)`, else `RevisionNotFound`. -/
def keyIndex.get (ki : keyIndex) (atRev : Int) : Except IndexErr (revision × revision × Int) :=
  match ki.findGenerationIdx atRev with
  | none => .error .revisionNotFound
  | some (_, g) =>
    match lastLE atRev g.revs with
    | none => .error .revisionNotFound
    | some (r, idx) => .ok (r, g.created, (idx : Int) + 1)

/-- Modelled from the spec: `keyIndex.since` (`key_index.go` is not among the
sources).  All revisions across all generations with `r.main ≥ rev`, in order. -/
def keyIndex.since (ki : keyIndex) (rev : Int) : List revision :=
  (ki.generations.flatMap (fun g => g.revs)).filter (fun r => decide (rev ≤ r.main))

/-- Rewrite a list's final element with `f` (helper for appending a revision to
the last generation). -/
def updateLast (f : generation → generation) : List generation → List generation
  | [] => []
  | [g] => [f g]
  | g :: rest => g :: updateLast f rest

/-- Append revision `(m, s)` to a generation: an empty generation gets
`created = (m, s)`; `ver` is incremented. -/
def pushRev (m s : Int) (g : generation) : generation :=
  if g.revs.isEmpty then ⟨⟨m, s⟩, g.ver + 1, [⟨m, s⟩]⟩
  else ⟨g.created, g.ver + 1, g.revs ++ [⟨m, s⟩]⟩

/-- Modelled from the spec: the mutation part of `keyIndex.put` (`key_index.go`
is not among the sources): ensure a generation exists, append `(m, s)` to the
last one, update `modified` and `valueSize`. -/
def keyIndex.putRev (ki : keyIndex) (m s vs : Int) : keyIndex :=
  let gens := match ki.generations with
    | [] => [freshGen]
    | l => l
  { ki with generations := updateLast (pushRev m s) gens, modified := ⟨m, s⟩, valueSize := vs }

/-- Modelled from the spec: `keyIndex.put` fails with `RevisionOutOfOrder` unless
`(m, s)` is strictly greater than `modified`. -/
def keyIndex.put (ki : keyIndex) (m s vs : Int) : Except IndexErr keyIndex :=
  if revLt ki.modified ⟨m, s⟩ then .ok (ki.putRev m s vs)
  else .error .revisionOutOfOrder

/-- Modelled from the spec: `keyIndex.tombstone` (`key_index.go` is not among the
sources).  Fails when there is no live generation, fails with
`RevisionOutOfOrder` on a non-monotonic revision, else appends the revision as a
write and opens a fresh empty generation. -/
def keyIndex.tombstone (ki : keyIndex) (m s : Int) : Except IndexErr keyIndex :=
  match ki.generations.getLast? with
  | none => .error .unavailable
  | some g =>
    if g.gIsEmpty then .error .unavailable
    else if revLt ki.modified ⟨m, s⟩ then
      .ok (let ki2 := ki.putRev m s 0
           { ki2 with generations := ki2.generations ++ [freshGen] })
    else .error .revisionOutOfOrder

/-- Modelled from the spec: the destructive part of `keyIndex.compact`
(`key_index.go` is not among the sources).  Locate the pivot — the generation and
revision `get(atRev)` would return — drop all older generations and, inside the
pivot's generation, all revisions before the pivot; with no pivot the key's
history is dropped entirely (the spec: the key is dead). -/
def keyIndex.compactKi (ki : keyIndex) (atRev : Int) : keyIndex :=
  match ki.findGenerationIdx atRev with
  | none => { ki with generations := [freshGen] }
  | some (gi, g) =>
    match lastLE atRev g.revs with
    | none => { ki with generations := [freshGen] }
    | some (_, ri) =>
      { ki with generations := { g with revs := g.revs.drop ri } :: ki.generations.drop (gi + 1) }

/-- Modelled from the spec: `keyIndex.keep` (`key_index.go` is not among the
sources).  Read-only: determine the same pivot as `compact` and report it for the
`available` set, without mutating. -/
def keyIndex.keep (ki : keyIndex) (atRev : Int) : List revision :=
  match ki.findGenerationIdx atRev with
  | none => []
  | some (_, g) =>
    match lastLE atRev g.revs with
    | none => []
    | some (r, _) => [r]

/-- Modelled from the spec: `keyIndex.equal` compares key, `modified`, and the
generation lists (created, ver, revs pointwise). -/
def keyIndex.equal (a b : keyIndex) : Bool :=
  decide (a.key = b.key) && decide (a.modified = b.modified) && decide (a.generations = b.generations)

/-- The ordered tree, as its ascending list of entries. -/
abbrev treeIndex := List keyIndex

/-- Tree states as maintained by the btree: entries strictly ascending by key. -/
def sortedTree (t : treeIndex) : Prop :=
  List.Pairwise (fun a b => byteLess a.key b.key = true) t

instance (t : treeIndex) : Decidable (sortedTree t) := by
  unfold sortedTree
  exact inferInstance

/-- Entry keys are pairwise distinct (implied by `sortedTree`). -/
def nodupKeys (t : treeIndex) : Prop :=
  (t.map keyIndex.key).Nodup

instance (t : treeIndex) : Decidable (nodupKeys t) := by
  unfold nodupKeys
  exact inferInstance

/-- `ti.tree.Get(&keyIndex{key: k})`: the entry whose key equals `k`. -/
def treeGet (t : treeIndex) (k : List Nat) : Option keyIndex :=
  t.find? (fun ki => decide (ki.key = k))

/-- `treeIndex.Get`: look the key up, then delegate to `keyIndex.get`. -/
def treeIndex.Get (t : treeIndex) (k : List Nat) (atRev : Int) :
    Except IndexErr (revision × revision × Int) :=
  match treeGet t k with
  | none => .error .revisionNotFound
  | some ki => ki.get atRev

/-- `tree.AscendGreaterOrEqual(keyi, …)`: the entries with key at or after `k`. -/
def ascendGE (t : treeIndex) (k : List Nat) : List keyIndex :=
  t.filter (fun ki => !byteLess ki.key k)

/-- `treeIndex.visit`: ascend from `k`, stopping at the first entry not below
`e` — but only when `e` is nonempty (`len(endi.key) > 0`).  All visitors used by
the source always continue, so the visited entries form this list. -/
def treeIndex.visit (t : treeIndex) (k e : List Nat) : List keyIndex :=
  (ascendGE t k).takeWhile (fun ki => e.isEmpty || byteLess ki.key e)

/-- The visiting loop of `treeIndex.Range`: append key and revision for each
entry whose `get(atRev)` succeeds. -/
def rangeFold (atRev : Int) : List keyIndex → List (List Nat) × List revision
  | [] => ([], [])
  | ki :: rest =>
    match ki.get atRev with
    | .ok (rev, _, _) =>
      ((ki.key :: (rangeFold atRev rest).1), (rev :: (rangeFold atRev rest).2))
    | .error _ => rangeFold atRev rest

/-- `treeIndex.Range`: single-key `Get` behaviour when `end` is nil, otherwise
the visiting loop over `[key, end)`. -/
def treeIndex.Range (t : treeIndex) (k : List Nat) (e : Option (List Nat)) (atRev : Int) :
    List (List Nat) × List revision :=
  match e with
  | none =>
    match treeIndex.Get t k atRev with
    | .error _ => ([], [])
    | .ok (rev, _, _) => ([k], [rev])
  | some e => rangeFold atRev (treeIndex.visit t k e)

/-- The visiting loop of `treeIndex.Revisions`: count every success in `total`,
append the revision only while under `limit` (or always when `limit ≤ 0`). -/
def revisionsLoop (atRev limit : Int) :
    List keyIndex → List revision → Nat → List revision × Nat
  | [], revs, total => (revs, total)
  | ki :: rest, revs, total =>
    match ki.get atRev with
    | .ok (rev, _, _) =>
      if decide (limit ≤ 0) || decide ((revs.length : Int) < limit) then
        revisionsLoop atRev limit rest (revs ++ [rev]) (total + 1)
      else
        revisionsLoop atRev limit rest revs (total + 1)
    | .error _ => revisionsLoop atRev limit rest revs total

/-- `treeIndex.Revisions`. -/
def treeIndex.Revisions (t : treeIndex) (k : List Nat) (e : Option (List Nat))
    (atRev limit : Int) : List revision × Nat :=
  match e with
  | none =>
    match treeIndex.Get t k atRev with
    | .error _ => ([], 0)
    | .ok (rev, _, _) => ([rev], 1)
  | some e => revisionsLoop atRev limit (treeIndex.visit t k e) [] 0

/-- Successful-lookup test used by the counting loops. -/
def getOk (atRev : Int) (ki : keyIndex) : Bool :=
  match ki.get atRev with
  | .ok _ => true
  | .error _ => false

/-- `treeIndex.CountRevisions`. -/
def treeIndex.CountRevisions (t : treeIndex) (k : List Nat) (e : Option (List Nat))
    (atRev : Int) : Nat :=
  match e with
  | none =>
    match treeIndex.Get t k atRev with
    | .error _ => 0
    | .ok _ => 1
  | some e => (treeIndex.visit t k e).countP (getOk atRev)

/-- `treeIndex.GetValueSize`: `(-1, false)` for an absent key, else the entry's
current `valueSize` with `true`. -/
def treeIndex.GetValueSize (t : treeIndex) (k : List Nat) : Int × Bool :=
  match treeGet t k with
  | none => (-1, false)
  | some ki => (ki.valueSize, true)

/-- `treeIndex.RangeValueSize`: empty unless the start key itself is present;
single-key answer when `end` is nil; otherwise the keys and value sizes of the
visited entries. -/
def treeIndex.RangeValueSize (t : treeIndex) (k : List Nat) (e : Option (List Nat)) :
    List (List Nat) × List Int :=
  match treeGet t k with
  | none => ([], [])
  | some ki =>
    match e with
    | none => ([k], [ki.valueSize])
    | some e =>
      (((treeIndex.visit t k e).map keyIndex.key), ((treeIndex.visit t k e).map keyIndex.valueSize))

/-- Replace the entry with key `k` (in Go the found `*keyIndex` is mutated in
place; here the entry is substituted). -/
def replaceByKey (t : treeIndex) (k : List Nat) (ki2 : keyIndex) : treeIndex :=
  t.map (fun e => if decide (e.key = k) then ki2 else e)

/-- `treeIndex.Tombstone`: `RevisionNotFound` for an absent key (tree untouched),
else delegate to `keyIndex.tombstone`, mutating the entry on success. -/
def treeIndex.Tombstone (t : treeIndex) (k : List Nat) (rev : revision) :
    Option IndexErr × treeIndex :=
  match treeGet t k with
  | none => (some .revisionNotFound, t)
  | some ki =>
    match ki.tombstone rev.main rev.sub with
    | .error e => (some e, t)
    | .ok ki2 => (none, replaceByKey t k ki2)

/-- `treeIndex.RangeSince`: the single key's `since(rev)` when `end` is nil
(empty if absent); otherwise the concatenated `since(rev)` outputs of the
visited entries, sorted ascending by revision (the ascend loop in the source
uses the same bound test as `visit`). -/
def treeIndex.RangeSince (t : treeIndex) (k : List Nat) (e : Option (List Nat)) (rev : Int) :
    List revision :=
  match e with
  | none =>
    match treeGet t k with
    | none => []
    | some ki => ki.since rev
  | some e => sortRevs ((treeIndex.visit t k e).flatMap (fun ki => ki.since rev))

/-- `tree.Delete(keyi)`: remove the entry with key `k`, `none` when absent
(the source panics on `none` during compaction). -/
def deleteByKey : treeIndex → List Nat → Option treeIndex
  | [], _ => none
  | ki :: rest, k =>
    if decide (ki.key = k) then some rest
    else (deleteByKey rest k).map (fun l => ki :: l)

/-- The per-entry walk of `treeIndex.Compact` over the clone: compact the entry,
collect its contribution to `available`, mirror the mutation in the live tree,
and delete the entry when it compacted to empty — `none` models the panic when
that delete misses. -/
def compactLoop (rev : Int) : List keyIndex → List revision × treeIndex →
    Option (List revision × treeIndex)
  | [], s => some s
  | ki :: rest, (avail, live) =>
    if (ki.compactKi rev).isEmptyKi then
      match deleteByKey (replaceByKey live ki.key (ki.compactKi rev)) ki.key with
      | none => none
      | some live2 => compactLoop rev rest (avail ++ ki.keep rev, live2)
    else compactLoop rev rest (avail ++ ki.keep rev, replaceByKey live ki.key (ki.compactKi rev))

/-- `treeIndex.Compact`: walk a clone of the tree, compacting each entry and
deleting those left empty; yields the `available` set and the resulting tree,
`none` modelling the panic on a failed delete. -/
def treeIndex.Compact (t : treeIndex) (rev : Int) : Option (List revision × treeIndex) :=
  compactLoop rev t ([], t)

/-- `treeIndex.Keep`: ascend all entries, collecting each `keyIndex.keep`
contribution; the tree is not touched. -/
def treeIndex.Keep (t : treeIndex) (rev : Int) : List revision :=
  t.flatMap (fun ki => ki.keep rev)

/-- The ascend loop of `treeIndex.Equal`: `none` models the panic when a key of
the receiver is missing from `b` (`b.tree.Get(item)` yields nil and the type
assertion panics); `some false` on the first keyIndex inequality. -/
def equalLoop : List keyIndex → treeIndex → Option Bool
  | [], _ => some true
  | ki :: rest, b =>
    match treeGet b ki.key with
    | none => none
    | some bki => if ki.equal bki then equalLoop rest b else some false

/-- `treeIndex.Equal`: `false` on a length mismatch, else the ascend loop. -/
def treeIndex.Equal (a b : treeIndex) : Option Bool :=
  if a.length ≠ b.length then some false
  else equalLoop a b

/-- `treeIndex.Insert`: unconditional replace-or-insert (restore path).  On the
list model: replace when present, else append. -/
def treeIndex.Insert (t : treeIndex) (ki : keyIndex) : treeIndex :=
  match treeGet t ki.key with
  | some _ => replaceByKey t ki.key ki
  | none => t ++ [ki]

/-! ### Specification-side definitions and concrete fixtures -/

/-- The `[k, e)` window test on entries: at or after `k`, strictly below `e`. -/
def inRange (k e : List Nat) (ki : keyIndex) : Bool :=
  !byteLess ki.key k && byteLess ki.key e

/-- Stated from the spec's words, for comparison with `treeIndex.Revisions`:
the number of keys in `[k, e)` whose `get(atRev)` succeeds. -/
def specTotal (t : treeIndex) (k e : List Nat) (atRev : Int) : Nat :=
  t.countP (fun ki => getOk atRev ki && inRange k e ki)

/-- Stated from the spec's words, for comparison with `treeIndex.RangeSince`:
the concatenation of `since(rev)` outputs over all keys in `[k, e)`, sorted
ascending by revision order. -/
def specRangeSince (t : treeIndex) (k e : List Nat) (rev : Int) : List revision :=
  sortRevs ((t.filter (inRange k e)).flatMap (fun ki => ki.since rev))

/-- Every key of `a` is present in `b` (the condition under which the `Equal`
scan can never hit a nil lookup). -/
def allKeysIn (a b : treeIndex) : Prop :=
  ∀ ki ∈ a, (treeGet b ki.key).isSome = true

instance (a b : treeIndex) : Decidable (allKeysIn a b) := by
  unfold allKeysIn
  exact inferInstance

/-- Fixture: key `a` written once at revision `(1,0)`. -/
def kiA : keyIndex := ⟨[97], ⟨1, 0⟩, 5, [⟨⟨1, 0⟩, 1, [⟨1, 0⟩]⟩]⟩

/-- Fixture: key `b` written once at revision `(2,0)`. -/
def kiB : keyIndex := ⟨[98], ⟨2, 0⟩, 6, [⟨⟨2, 0⟩, 1, [⟨2, 0⟩]⟩]⟩

/-- Fixture: key `c` written at `(1,0)` and tombstoned at `(2,0)` (closed
generation followed by the empty sentinel generation). -/
def kiT : keyIndex := ⟨[99], ⟨2, 0⟩, 0, [⟨⟨1, 0⟩, 2, [⟨1, 0⟩, ⟨2, 0⟩]⟩, freshGen]⟩

/-! ### Order lemmas for the byte-string comparison and the visit window -/

/-- `byteLess` is transitive. -/
theorem byteLess_trans : ∀ {a b c : List Nat},
    byteLess a b = true → byteLess b c = true → byteLess a c = true := by
  intro a
  induction a with
  | nil =>
    intro b c hab hbc
    cases b with
    | nil => simp [byteLess] at hab
    | cons y ys =>
      cases c with
      | nil => simp [byteLess] at hbc
      | cons z zs => simp [byteLess]
  | cons x xs ih =>
    intro b c hab hbc
    cases b with
    | nil => simp [byteLess] at hab
    | cons y ys =>
      cases c with
      | nil => simp [byteLess] at hbc
      | cons z zs =>
        simp only [byteLess, Bool.or_eq_true, Bool.and_eq_true, decide_eq_true_eq] at hab hbc ⊢
        rcases hab with h1 | ⟨h1, h2⟩ <;> rcases hbc with h3 | ⟨h3, h4⟩
        · exact Or.inl (h1.trans h3)
        · exact Or.inl (h3 ▸ h1)
        · exact Or.inl (h1 ▸ h3)
        · exact Or.inr ⟨h1.trans h3, ih h2 h4⟩

/-- On a list that is pairwise `r`-sorted, `takeWhile p` agrees with `filter p`
whenever `p` is downward closed along `r`. -/
theorem takeWhile_eq_filter_of_sorted {α : Type} {r : α → α → Prop} {p : α → Bool}
    (hp : ∀ a b, r a b → p b = true → p a = true) :
    ∀ {l : List α}, l.Pairwise r → l.takeWhile p = l.filter p := by
  intro l
  induction l with
  | nil => intro _; rfl
  | cons a l ih =>
    intro hpw
    rcases List.pairwise_cons.mp hpw with ⟨hall, htail⟩
    cases hpa : p a with
    | true => simp [List.takeWhile_cons, List.filter_cons, hpa, ih htail]
    | false =>
      have hnil : l.filter p = [] := by
        refine List.filter_eq_nil_iff.mpr (fun b hb hpb => ?_)
        have := hp a b (hall b hb) hpb
        simp [hpa] at this
      simp [List.takeWhile_cons, List.filter_cons, hpa, hnil]


/-- For a sorted tree and a nonempty `e`, the visited entries are exactly those
in the window `[k, e)`. -/
theorem visit_eq_filter {t : treeIndex} {k e : List Nat}
    (hs : sortedTree t) (he : e ≠ []) :
    treeIndex.visit t k e = t.filter (inRange k e) := by
  unfold treeIndex.visit ascendGE
  have hemp : e.isEmpty = false := by
    cases e with
    | nil => exact absurd rfl he
    | cons x xs => rfl
  have hsf : (t.filter (fun ki => !byteLess ki.key k)).Pairwise
      (fun a b => byteLess a.key b.key = true) := List.Pairwise.filter _ hs
  have h1 : (t.filter (fun ki => !byteLess ki.key k)).takeWhile
        (fun ki => e.isEmpty || byteLess ki.key e)
      = (t.filter (fun ki => !byteLess ki.key k)).filter
        (fun ki => e.isEmpty || byteLess ki.key e) := by
    refine takeWhile_eq_filter_of_sorted ?_ hsf
    intro a b hr hb
    simp only [hemp, Bool.false_or] at hb ⊢
    exact byteLess_trans hr hb
  rw [h1, List.filter_filter]
  refine List.filter_congr (fun ki _ => ?_)
  simp [hemp, inRange, Bool.and_comm]

/-- With the zero-length `e` the visit window has no upper bound: every entry at
or after `k` is visited. -/
theorem visit_nil_end (t : treeIndex) (k : List Nat) :
    treeIndex.visit t k [] = ascendGE t k := by
  unfold treeIndex.visit
  refine List.takeWhile_eq_self_iff.mpr (fun ki _ => ?_)
  rfl

/-! ### Claims -/

/-- C1: With `end == nil`, `Range(key, end, atRev)` behaves as single-key `Get`:
when `Get` succeeds with revision `rev` it returns `([key], [rev])`; when `Get`
fails with `RevisionNotFound` it returns empty key and revision lists. -/
theorem c1_range_nil_end_matches_get (t : treeIndex) (k : List Nat) (atRev : Int) :
    (∀ r c v, treeIndex.Get t k atRev = .ok (r, c, v) →
      treeIndex.Range t k none atRev = ([k], [r])) ∧
    (treeIndex.Get t k atRev = .error .revisionNotFound →
      treeIndex.Range t k none atRev = ([], [])) := by
  constructor
  · intro r c v h
    simp [treeIndex.Range, h]
  · intro h
    simp [treeIndex.Range, h]

/-- C1 witness: on a one-key tree, `Get` succeeds and `Range` with nil end
returns that key and revision. -/
theorem c1_range_nil_end_matches_get_wit :
    treeIndex.Get [kiA] [97] 1 = .ok (⟨1, 0⟩, ⟨1, 0⟩, 1) ∧
    treeIndex.Range [kiA] [97] none 1 = ([[97]], [⟨1, 0⟩]) :=
  ⟨rfl, (c1_range_nil_end_matches_get [kiA] [97] 1).1 ⟨1, 0⟩ ⟨1, 0⟩ 1 rfl⟩

/-- C2: `Tombstone` on a key absent from the tree fails with `RevisionNotFound`
and leaves the tree unchanged. -/
theorem c2_tombstone_absent_key (t : treeIndex) (k : List Nat) (rev : revision)
    (h : treeGet t k = none) :
    treeIndex.Tombstone t k rev = (some .revisionNotFound, t) := by
  simp [treeIndex.Tombstone, h]

/-- C2 witness: on the empty tree, `Tombstone(x, (1,0))` yields
`RevisionNotFound` and the tree stays empty. -/
theorem c2_tombstone_absent_key_wit :
    treeGet ([] : treeIndex) [120] = none ∧
    treeIndex.Tombstone ([] : treeIndex) [120] ⟨1, 0⟩ = (some .revisionNotFound, []) :=
  ⟨rfl, c2_tombstone_absent_key [] [120] ⟨1, 0⟩ rfl⟩

/-- C5 counterexample: with the zero-length non-nil end, `Range` does not return
the `end == nil` single-key result — on a two-key tree it scans both keys. -/
theorem c5_cex_empty_end_not_single_key :
    treeIndex.Range [kiA, kiB] [97] (some []) 2 ≠ treeIndex.Range [kiA, kiB] [97] none 2 := by
  decide

/-- C5 (amended): a zero-length non-nil `end` is not single-key: each range
operation called with `end == []` behaves as an unbounded range, scanning every
key at or after `key` with no upper bound. -/
theorem c5_empty_end_unbounded (t : treeIndex) (k : List Nat) (atRev limit rev : Int) :
    treeIndex.Range t k (some []) atRev = rangeFold atRev (ascendGE t k) ∧
    treeIndex.Revisions t k (some []) atRev limit =
      revisionsLoop atRev limit (ascendGE t k) [] 0 ∧
    treeIndex.CountRevisions t k (some []) atRev = (ascendGE t k).countP (getOk atRev) ∧
    treeIndex.RangeSince t k (some []) rev =
      sortRevs ((ascendGE t k).flatMap (fun ki => ki.since rev)) := by
  refine ⟨?_, ?_, ?_, ?_⟩ <;>
    simp [treeIndex.Range, treeIndex.Revisions, treeIndex.CountRevisions,
      treeIndex.RangeSince, visit_nil_end]

/-- C9: `RangeValueSize` returns empty lists whenever the start key itself is
absent, even with a non-nil end and other keys inside `[key, end)`. -/
theorem c9_rangevaluesize_absent_start (t : treeIndex) (k : List Nat)
    (e : Option (List Nat)) (h : treeGet t k = none) :
    treeIndex.RangeValueSize t k e = ([], []) := by
  simp [treeIndex.RangeValueSize, h]

/-- C9 witness: key `a` is absent while key `b` lies inside `[a, c)`; the scan
still returns nothing. -/
theorem c9_rangevaluesize_absent_start_wit :
    treeGet [kiB] [97] = none ∧
    treeIndex.RangeValueSize [kiB] [97] (some [99]) = ([], []) :=
  ⟨rfl, c9_rangevaluesize_absent_start [kiB] [97] (some [99]) rfl⟩

/-- C10: `GetValueSize` returns `(-1, false)` for an absent key and
`(valueSize, true)` for a present one; it takes no revision argument, so the
result cannot depend on one. -/
theorem c10_getvaluesize (t : treeIndex) (k : List Nat) :
    (treeGet t k = none → treeIndex.GetValueSize t k = (-1, false)) ∧
    (∀ ki, treeGet t k = some ki → treeIndex.GetValueSize t k = (ki.valueSize, true)) := by
  constructor
  · intro h
    simp [treeIndex.GetValueSize, h]
  · intro ki h
    simp [treeIndex.GetValueSize, h]

/-- C10 witness: the one-entry tree holding key `a` reports that entry's
`valueSize` with `true`. -/
theorem c10_getvaluesize_wit :
    treeGet [kiA] [97] = some kiA ∧
    treeIndex.GetValueSize [kiA] [97] = (kiA.valueSize, true) :=
  ⟨rfl, (c10_getvaluesize [kiA] [97]).2 kiA rfl⟩

/-- The `total` counter of the `Revisions` loop counts every visited entry whose
`get(atRev)` succeeds, on top of its starting value. -/
theorem revisionsLoop_total (atRev limit : Int) :
    ∀ (l : List keyIndex) (revs : List revision) (total : Nat),
      (revisionsLoop atRev limit l revs total).2 = total + l.countP (getOk atRev) := by
  intro l
  induction l with
  | nil =>
    intro revs total
    simp [revisionsLoop]
  | cons ki rest ih =>
    intro revs total
    cases hget : ki.get atRev with
    | error err =>
      simp [revisionsLoop, hget, ih, List.countP_cons, getOk]
    | ok v =>
      obtain ⟨r, c, vv⟩ := v
      by_cases hc : (decide (limit ≤ 0) || decide ((revs.length : Int) < limit)) = true
      · simp [revisionsLoop, hget, hc, ih, List.countP_cons, getOk]
        omega
      · simp only [Bool.not_eq_true] at hc
        simp [revisionsLoop, hget, hc, ih, List.countP_cons, getOk]
        omega

/-- Invariant of the `Revisions` loop: the revision list stays clamped to
`limit` when `limit > 0` and tracks `total` otherwise. -/
theorem revisionsLoop_len (atRev limit : Int) :
    ∀ (l : List keyIndex) (revs : List revision) (total : Nat),
      ((revs.length : Int) = if limit ≤ 0 then (total : Int) else min limit (total : Int)) →
      (((revisionsLoop atRev limit l revs total).1.length : Int) =
        if limit ≤ 0 then ((revisionsLoop atRev limit l revs total).2 : Int)
        else min limit ((revisionsLoop atRev limit l revs total).2 : Int)) := by
  intro l
  induction l with
  | nil =>
    intro revs total h
    simpa [revisionsLoop] using h
  | cons ki rest ih =>
    intro revs total h
    cases hget : ki.get atRev with
    | error err =>
      simpa [revisionsLoop, hget] using ih revs total h
    | ok v =>
      obtain ⟨r, c, vv⟩ := v
      by_cases hc : (decide (limit ≤ 0) || decide ((revs.length : Int) < limit)) = true
      · have h2 : (((revs ++ [r]).length : Int) =
            if limit ≤ 0 then ((total + 1 : Nat) : Int) else min limit ((total + 1 : Nat) : Int)) := by
          simp only [Bool.or_eq_true, decide_eq_true_eq] at hc
          simp only [List.length_append, List.length_cons, List.length_nil]
          push_cast
          split_ifs at h ⊢ <;> omega
        simpa [revisionsLoop, hget, hc] using ih (revs ++ [r]) (total + 1) h2
      · have hc2 : ¬ limit ≤ 0 ∧ ¬ ((revs.length : Int) < limit) := by
          simp only [Bool.not_eq_true, Bool.or_eq_false_iff, decide_eq_false_iff_not] at hc
          exact hc
        have h2 : ((revs.length : Int) =
            if limit ≤ 0 then ((total + 1 : Nat) : Int) else min limit ((total + 1 : Nat) : Int)) := by
          push_cast
          split_ifs at h ⊢ <;> omega
        have hc' : (decide (limit ≤ 0) || decide ((revs.length : Int) < limit)) = false := by
          simp only [Bool.not_eq_true] at hc
          exact hc
        simpa [revisionsLoop, hget, hc'] using ih revs (total + 1) h2

/-- C3 counterexample: with the zero-length non-nil end, the visited window is
not `[key, end)` — on a one-key tree `Revisions` reports total 1 while `[key, [])`
holds no key at all. -/
theorem c3_cex_empty_end :
    (treeIndex.Revisions [kiA] [97] (some []) 1 0).2 ≠ specTotal [kiA] [97] [] 1 := by
  decide

/-- C3 (amended): for a (key-sorted) tree and a non-nil, nonempty `end`,
`Revisions(key, end, atRev, limit)` returns `total` counting all keys in
`[key, end)` whose `get(atRev)` succeeds, and the revision list has length
`min(limit, total)` when `limit > 0` and `total` when `limit ≤ 0`.  (With
`end == []` the window is unbounded instead — see the counterexample.) -/
theorem c3_revisions_total_and_limit (t : treeIndex) (k e : List Nat) (atRev limit : Int)
    (hs : sortedTree t) (he : e ≠ []) :
    (treeIndex.Revisions t k (some e) atRev limit).2 = specTotal t k e atRev ∧
    (0 < limit →
      (((treeIndex.Revisions t k (some e) atRev limit).1.length : Int) =
        min limit ((treeIndex.Revisions t k (some e) atRev limit).2 : Int))) ∧
    (limit ≤ 0 →
      (treeIndex.Revisions t k (some e) atRev limit).1.length =
        (treeIndex.Revisions t k (some e) atRev limit).2) := by
  have htot : (treeIndex.Revisions t k (some e) atRev limit).2 = specTotal t k e atRev := by
    show (revisionsLoop atRev limit (treeIndex.visit t k e) [] 0).2 = _
    rw [revisionsLoop_total, visit_eq_filter hs he, List.countP_filter]
    simp [specTotal]
  have hlen := revisionsLoop_len atRev limit (treeIndex.visit t k e) [] 0
    (by simp; split_ifs <;> omega)
  refine ⟨htot, ?_, ?_⟩
  · intro hpos
    rw [if_neg (by omega)] at hlen
    exact hlen
  · intro hneg
    rw [if_pos hneg] at hlen
    exact_mod_cast hlen

/-- C3 witness: two keys in `[a, d)`, both live at revision 2, limit 1: total is
2 and one revision is returned. -/
theorem c3_revisions_total_and_limit_wit :
    sortedTree [kiA, kiB] ∧ [100] ≠ ([] : List Nat) ∧
    (treeIndex.Revisions [kiA, kiB] [97] (some [100]) 2 1).2 = specTotal [kiA, kiB] [97] [100] 2 ∧
    (((treeIndex.Revisions [kiA, kiB] [97] (some [100]) 2 1).1.length : Int) =
      min 1 ((treeIndex.Revisions [kiA, kiB] [97] (some [100]) 2 1).2 : Int)) :=
  ⟨by decide, by decide,
    (c3_revisions_total_and_limit [kiA, kiB] [97] [100] 2 1 (by decide) (by decide)).1,
    (c3_revisions_total_and_limit [kiA, kiB] [97] [100] 2 1 (by decide) (by decide)).2.1
      (by omega)⟩

/-- C4 counterexample: with the zero-length non-nil end the scanned window is
not `[key, end)`: `[key, [])` holds no key, yet `RangeSince` returns the key's
revisions. -/
theorem c4_cex_empty_end :
    treeIndex.RangeSince [kiA] [97] (some []) 1 ≠ specRangeSince [kiA] [97] [] 1 := by
  decide

/-- C4 (amended): with `end == nil`, `RangeSince` returns the single key's
`since(rev)` output (empty when the key is absent); with a non-nil, nonempty
`end` it returns the concatenation of `since(rev)` outputs over all keys in
`[key, end)`, sorted ascending by revision order.  (With `end == []` the scan is
unbounded instead — see the counterexample.) -/
theorem c4_rangesince_since_union (t : treeIndex) (k e : List Nat) (rev : Int)
    (hs : sortedTree t) (he : e ≠ []) :
    (treeGet t k = none → treeIndex.RangeSince t k none rev = []) ∧
    (∀ ki, treeGet t k = some ki → treeIndex.RangeSince t k none rev = ki.since rev) ∧
    treeIndex.RangeSince t k (some e) rev = specRangeSince t k e rev := by
  refine ⟨?_, ?_, ?_⟩
  · intro h
    simp [treeIndex.RangeSince, h]
  · intro ki h
    simp [treeIndex.RangeSince, h]
  · show sortRevs ((treeIndex.visit t k e).flatMap fun ki => ki.since rev) = _
    rw [visit_eq_filter hs he]
    rfl

/-- C4 witness: two keys in `[a, d)` with writes at `(1,0)` and `(2,0)`; the
sorted union of their `since(1)` outputs is returned. -/
theorem c4_rangesince_since_union_wit :
    sortedTree [kiA, kiB] ∧ [100] ≠ ([] : List Nat) ∧
    treeIndex.RangeSince [kiA, kiB] [97] (some [100]) 1 =
      specRangeSince [kiA, kiB] [97] [100] 1 :=
  ⟨by decide, by decide,
    (c4_rangesince_since_union [kiA, kiB] [97] [100] 1 (by decide) (by decide)).2.2⟩

/-- Per-key compaction never changes the key. -/
theorem compactKi_key (ki : keyIndex) (rev : Int) : (ki.compactKi rev).key = ki.key := by
  unfold keyIndex.compactKi
  split
  · rfl
  · split <;> rfl

/-- Replacing an entry by one with the same key leaves the key list unchanged. -/
theorem replaceByKey_keys {ki2 : keyIndex} {k : List Nat} (h : ki2.key = k) :
    ∀ t : treeIndex, (replaceByKey t k ki2).map keyIndex.key = t.map keyIndex.key := by
  intro t
  induction t with
  | nil => rfl
  | cons a t ih =>
    simp only [replaceByKey] at ih ⊢
    simp only [List.map_cons]
    rw [ih]
    by_cases ha : a.key = k
    · simp [ha, h]
    · simp [ha]

/-- Members of a replaced tree: the new entry, or an old entry with a different
key. -/
theorem mem_replaceByKey {e ki2 : keyIndex} {k : List Nat} {t : treeIndex}
    (he : e ∈ replaceByKey t k ki2) : e = ki2 ∨ (e ∈ t ∧ e.key ≠ k) := by
  unfold replaceByKey at he
  rcases List.mem_map.mp he with ⟨x, hx, hfx⟩
  by_cases hk : x.key = k
  · left
    simp [hk] at hfx
    exact hfx.symm
  · right
    simp [hk] at hfx
    exact ⟨hfx ▸ hx, hfx ▸ hk⟩

/-- Deleting a present key succeeds. -/
theorem deleteByKey_isSome {k : List Nat} :
    ∀ {t : treeIndex}, k ∈ t.map keyIndex.key → ∃ t', deleteByKey t k = some t' := by
  intro t
  induction t with
  | nil =>
    intro h
    simp at h
  | cons a t ih =>
    intro h
    by_cases ha : a.key = k
    · exact ⟨t, by simp [deleteByKey, ha]⟩
    · have hm : k ∈ t.map keyIndex.key := by
        simp only [List.map_cons, List.mem_cons] at h
        rcases h with h | h
        · exact absurd h.symm ha
        · exact h
      rcases ih hm with ⟨t', ht'⟩
      exact ⟨a :: t', by simp [deleteByKey, ha, ht']⟩

/-- A successful delete removes exactly the first entry keyed `k`. -/
theorem deleteByKey_keys {k : List Nat} :
    ∀ {t t' : treeIndex}, deleteByKey t k = some t' →
      t'.map keyIndex.key = (t.map keyIndex.key).erase k := by
  intro t
  induction t with
  | nil =>
    intro t' h
    simp [deleteByKey] at h
  | cons a t ih =>
    intro t' h
    by_cases ha : a.key = k
    · simp only [deleteByKey, ha, decide_eq_true_eq, if_pos] at h
      cases h
      simp [List.erase_cons, ha]
    · rw [deleteByKey, if_neg (by simpa using ha)] at h
      rcases Option.map_eq_some'.mp h with ⟨l, hl, rfl⟩
      simp [List.map_cons, ih hl, List.erase_cons, ha]

/-- Members of a deleted tree were members before the delete. -/
theorem deleteByKey_mem {k : List Nat} :
    ∀ {t t' : treeIndex}, deleteByKey t k = some t' → ∀ {e : keyIndex}, e ∈ t' → e ∈ t := by
  intro t
  induction t with
  | nil =>
    intro t' h
    simp [deleteByKey] at h
  | cons a t ih =>
    intro t' h e he
    by_cases ha : a.key = k
    · simp only [deleteByKey, ha, decide_eq_true_eq, if_pos] at h
      cases h
      exact List.mem_cons_of_mem a he
    · rw [deleteByKey, if_neg (by simpa using ha)] at h
      rcases Option.map_eq_some'.mp h with ⟨l, hl, rfl⟩
      rcases List.mem_cons.mp he with rfl | he'
      · exact List.mem_cons_self e t
      · exact List.mem_cons_of_mem a (ih hl he')

/-- Invariant of the `Compact` walk over the clone: with pairwise-distinct keys
in both the remaining clone entries and the live tree, every per-entry delete
succeeds, the collected `available` list is the concatenation of the per-entry
`keep` contributions, and the final live tree holds no empty entry. -/
theorem compactLoop_spec (rev : Int) :
    ∀ (l : List keyIndex) (avail : List revision) (live : treeIndex),
      (l.map keyIndex.key).Nodup →
      (live.map keyIndex.key).Nodup →
      (∀ ki ∈ l, ki.key ∈ live.map keyIndex.key) →
      (∀ e ∈ live, e.key ∉ l.map keyIndex.key → e.isEmptyKi = false) →
      ∃ live2, compactLoop rev l (avail, live) =
          some (avail ++ l.flatMap (fun ki => ki.keep rev), live2) ∧
        ∀ e ∈ live2, e.isEmptyKi = false := by
  intro l
  induction l with
  | nil =>
    intro avail live _ _ _ hinv
    refine ⟨live, by simp [compactLoop], ?_⟩
    intro e he
    exact hinv e he (by simp)
  | cons ki rest ih =>
    intro avail live hnd hlnd hmem hinv
    obtain ⟨hk1, hknd⟩ := List.nodup_cons.mp hnd
    have hkey : (ki.compactKi rev).key = ki.key := compactKi_key ki rev
    have hkeys1 : (replaceByKey live ki.key (ki.compactKi rev)).map keyIndex.key
        = live.map keyIndex.key := replaceByKey_keys hkey live
    by_cases hempty : (ki.compactKi rev).isEmptyKi = true
    · have hmemk : ki.key ∈ (replaceByKey live ki.key (ki.compactKi rev)).map keyIndex.key := by
        rw [hkeys1]
        exact hmem ki (List.mem_cons_self ki rest)
      rcases deleteByKey_isSome hmemk with ⟨liveD, hdel⟩
      have hkeysD : liveD.map keyIndex.key = (live.map keyIndex.key).erase ki.key := by
        rw [deleteByKey_keys hdel, hkeys1]
      have hlndD : (liveD.map keyIndex.key).Nodup := by
        rw [hkeysD]
        exact hlnd.erase _
      have hmemD : ∀ x ∈ rest, x.key ∈ liveD.map keyIndex.key := by
        intro x hx
        rw [hkeysD]
        refine (List.mem_erase_of_ne ?_).mpr (hmem x (List.mem_cons_of_mem ki hx))
        intro hxk
        exact hk1 (hxk ▸ List.mem_map_of_mem keyIndex.key hx)
      have hinvD : ∀ e ∈ liveD, e.key ∉ rest.map keyIndex.key → e.isEmptyKi = false := by
        intro e he hek
        have hene : e.key ≠ ki.key := by
          intro heq
          have hmm : e.key ∈ liveD.map keyIndex.key := List.mem_map_of_mem keyIndex.key he
          rw [hkeysD] at hmm
          exact hlnd.not_mem_erase (heq ▸ hmm)
        rcases mem_replaceByKey (deleteByKey_mem hdel he) with heq | ⟨he0, _⟩
        · exact absurd (heq ▸ hkey) hene
        · refine hinv e he0 ?_
          simp only [List.map_cons, List.mem_cons]
          rintro (h | h)
          · exact hene h
          · exact hek h
      rcases ih (avail ++ ki.keep rev) liveD hknd hlndD hmemD hinvD with ⟨live2, hloop, hfin⟩
      refine ⟨live2, ?_, hfin⟩
      rw [compactLoop, if_pos hempty, hdel]
      show compactLoop rev rest (avail ++ ki.keep rev, liveD) = _
      rw [hloop]
      simp [List.append_assoc]
    · have hemptyF : (ki.compactKi rev).isEmptyKi = false := by
        simpa using hempty
      have hlnd1 : ((replaceByKey live ki.key (ki.compactKi rev)).map keyIndex.key).Nodup := by
        rw [hkeys1]
        exact hlnd
      have hmem1 : ∀ x ∈ rest, x.key ∈ (replaceByKey live ki.key (ki.compactKi rev)).map keyIndex.key := by
        intro x hx
        rw [hkeys1]
        exact hmem x (List.mem_cons_of_mem ki hx)
      have hinv1 : ∀ e ∈ replaceByKey live ki.key (ki.compactKi rev),
          e.key ∉ rest.map keyIndex.key → e.isEmptyKi = false := by
        intro e he hek
        rcases mem_replaceByKey he with rfl | ⟨he0, hene⟩
        · exact hemptyF
        · refine hinv e he0 ?_
          simp only [List.map_cons, List.mem_cons]
          rintro (h | h)
          · exact hene h
          · exact hek h
      rcases ih (avail ++ ki.keep rev) (replaceByKey live ki.key (ki.compactKi rev))
        hknd hlnd1 hmem1 hinv1 with ⟨live2, hloop, hfin⟩
      refine ⟨live2, ?_, hfin⟩
      rw [compactLoop, if_neg (by simp [hemptyF]), hloop]
      simp [List.append_assoc]

/-- C6: `Keep(rev)` computes exactly the `available` set that `Compact(rev)`
returns: on any tree with distinct keys the compaction walk completes and its
first component is the `Keep` output (the per-key `keep` and `compact`
contributions coincide by construction, following the spec's "same pivot").
`Keep` itself takes the tree and returns only the revision list, mutating
nothing. -/
theorem c6_keep_eq_compact (t : treeIndex) (rev : Int) (h : nodupKeys t) :
    (treeIndex.Compact t rev).map Prod.fst = some (treeIndex.Keep t rev) := by
  rcases compactLoop_spec rev t [] t h h
      (fun ki hki => List.mem_map_of_mem keyIndex.key hki)
      (fun e he hek => absurd (List.mem_map_of_mem keyIndex.key he) hek) with ⟨t2, hl, _⟩
  rw [treeIndex.Compact, hl]
  simp [treeIndex.Keep]

/-- C6 witness: on the two-key tree `[kiA, kiT]` at revision 1, `Compact`'s
available component equals `Keep`'s output. -/
theorem c6_keep_eq_compact_wit :
    nodupKeys [kiA, kiT] ∧
    (treeIndex.Compact [kiA, kiT] 1).map Prod.fst = some (treeIndex.Keep [kiA, kiT] 1) :=
  ⟨by decide, c6_keep_eq_compact [kiA, kiT] 1 (by decide)⟩

/-- C7: after a completed `Compact(rev)` the tree holds no empty keyIndex:
every entry left empty by per-key compaction was deleted (the `none` result of
`treeIndex.Compact` models the panic taken when such a delete misses its key). -/
theorem c7_compact_deletes_empty (t : treeIndex) (rev : Int) (h : nodupKeys t)
    (avail : List revision) (t2 : treeIndex)
    (hc : treeIndex.Compact t rev = some (avail, t2)) :
    ∀ e ∈ t2, e.isEmptyKi = false := by
  rcases compactLoop_spec rev t [] t h h
      (fun ki hki => List.mem_map_of_mem keyIndex.key hki)
      (fun e he hek => absurd (List.mem_map_of_mem keyIndex.key he) hek) with ⟨t2', hl, hf⟩
  rw [treeIndex.Compact, hl] at hc
  cases hc
  exact hf

/-- C7 witness: compacting `[kiA, kiT]` at revision 3 deletes the tombstoned
`kiT` (compacted to empty) and keeps the non-empty `kiA`. -/
theorem c7_compact_deletes_empty_wit :
    nodupKeys [kiA, kiT] ∧
    treeIndex.Compact [kiA, kiT] 3 = some ([⟨1, 0⟩], [kiA]) ∧
    kiA.isEmptyKi = false :=
  ⟨by decide, by decide,
    c7_compact_deletes_empty [kiA, kiT] 3 (by decide) [⟨1, 0⟩] [kiA] (by decide)
      kiA (List.mem_cons_self kiA [])⟩

/-- When every key of the scanned list is present in `b`, the `Equal` ascend
loop completes with a boolean. -/
theorem equalLoop_isSome :
    ∀ (l : List keyIndex) (b : treeIndex), (∀ ki ∈ l, (treeGet b ki.key).isSome = true) →
      (equalLoop l b).isSome = true := by
  intro l
  induction l with
  | nil =>
    intro b _
    rfl
  | cons ki rest ih =>
    intro b h
    have h1 := h ki (List.mem_cons_self ki rest)
    cases hg : treeGet b ki.key with
    | none =>
      rw [hg] at h1
      simp at h1
    | some bki =>
      simp only [equalLoop, hg]
      by_cases he : ki.equal bki = true
      · simp only [he, if_pos]
        exact ih b (fun x hx => h x (List.mem_cons_of_mem ki hx))
      · simp [he]

/-- C8 counterexample: `Equal` can return a boolean although a key of the
receiver is absent from the other tree — a length mismatch returns `false`
without scanning. -/
theorem c8_cex_boolean_despite_absent_key :
    treeIndex.Equal [kiA] [] = some false ∧ treeGet ([] : treeIndex) kiA.key = none := by
  constructor
  · decide
  · rfl

/-- C8 (amended): on trees with the same number of keys but differing key sets,
`Equal` can reach a key of the receiver absent from the other tree, where the
nil lookup is type-asserted and the source panics (modelled as `none`) instead
of returning `false`; and whenever every key of the receiver is present in the
other tree, `Equal` does return a boolean.  (Presence of every receiver key is
sufficient but not necessary for a boolean result: `Equal` also returns `false`
on a length mismatch, or on a keyIndex inequality found before any absent key.) -/
theorem c8_equal_nil_assert :
    treeIndex.Equal [kiA] [kiB] = none ∧
    (∀ (a b : treeIndex), allKeysIn a b → (treeIndex.Equal a b).isSome = true) := by
  constructor
  · decide
  · intro a b h
    rw [treeIndex.Equal]
    by_cases hl : a.length ≠ b.length
    · simp [hl]
    · rw [if_neg hl]
      exact equalLoop_isSome a b h

/-- C8 witness: a tree compared against itself has every key present, and
`Equal` returns a boolean. -/
theorem c8_equal_nil_assert_wit :
    allKeysIn [kiA] [kiA] ∧ (treeIndex.Equal [kiA] [kiA]).isSome = true :=
  ⟨by decide, c8_equal_nil_assert.2 [kiA] [kiA] (by decide)⟩
